import Mathlib

/-!
Verification of the battery-icon SVG rewriter (src/main.rs, src/matcher.rs, src/tag.rs).

The program is a streaming SVG rewriter: it reads XML events, tracks the stack
of open elements, and for the self-closing element matching the selector
"rect#fraction" rescales its `width` attribute and conditionally rewrites the
`fill` property inside its `style` attribute.

Embedding conventions:
* Decoded text is `Str := List Char`; raw (possibly non-UTF-8) byte strings are
  `List Nat`, with a strict UTF-8 codec mirroring Rust's `str::from_utf8`.
* Rust's `HashMap<String, String>` is an association list with last-write-wins
  insertion; lookup semantics coincide, iteration order of the Rust map is
  unspecified so any fixed order is a legitimate refinement.
* `f64` values produced by `str::parse::<f64>()` and printed by `Display` are
  modelled as exact scaled decimals `Scaled := Int × Nat` (value `i / 10 ^ e`);
  comparisons agree with the `f64` comparisons at every decimal literal that
  appears in the claims.  The exponent / inf / nan forms of the `f64` grammar
  are outside the fragment exercised here and are not modelled.
* `Vec<Tag>` used as a stack (push / pop / last at the mutable end) is a
  `List Tag` with the top at the head.
-/

abbrev Str := List Char

def s2l (s : String) : Str := s.data

instance {ε α : Type} [DecidableEq ε] [DecidableEq α] : DecidableEq (Except ε α) :=
  fun a b =>
    match a, b with
    | .error e, .error e' =>
      if h : e = e' then .isTrue (by rw [h]) else .isFalse (by intro hh; cases hh; exact h rfl)
    | .ok x, .ok y =>
      if h : x = y then .isTrue (by rw [h]) else .isFalse (by intro hh; cases hh; exact h rfl)
    | .error _, .ok _ => .isFalse (by intro h; cases h)
    | .ok _, .error _ => .isFalse (by intro h; cases h)

/-- Code points with the Unicode White_Space property, the set used by
Rust's `str::trim` (via `char::is_whitespace`). -/
def isRustWhitespace (c : Char) : Bool :=
  decide (c.toNat = 9 ∨ c.toNat = 10 ∨ c.toNat = 11 ∨ c.toNat = 12 ∨ c.toNat = 13 ∨
    c.toNat = 32 ∨ c.toNat = 133 ∨ c.toNat = 160 ∨ c.toNat = 5760 ∨
    (8192 ≤ c.toNat ∧ c.toNat ≤ 8202) ∨ c.toNat = 8232 ∨ c.toNat = 8233 ∨
    c.toNat = 8239 ∨ c.toNat = 8287 ∨ c.toNat = 12288)

/-- Rust `str::trim`: drop whitespace from both ends. -/
def rustTrim (s : Str) : Str :=
  ((s.dropWhile isRustWhitespace).reverse.dropWhile isRustWhitespace).reverse

/-- Rust `str::split(pat)` for a one-character pattern: the empty string yields
the single segment `[]`. -/
def splitOnChar (c : Char) : Str → List Str
  | [] => [[]]
  | x :: xs =>
    match splitOnChar c xs with
    | [] => [[]]
    | y :: ys => if x = c then [] :: y :: ys else (x :: y) :: ys

/-- Split at the first occurrence of `c`, as in Rust's `split_once` and as the
two-element case of `splitn(2, pat)`. -/
def splitFirst (c : Char) : Str → Option (Str × Str)
  | [] => none
  | x :: xs =>
    if x = c then some ([], xs)
    else
      match splitFirst c xs with
      | none => none
      | some (a, b) => some (x :: a, b)

/-- Error kinds of the program, one constructor per distinct error site
(the Rust code uses formatted strings through `Box<dyn Error>`). -/
inductive Err
  /-- `str::from_utf8` failure on an element name in `Tag::new`. -/
  | nameDecode
  /-- `str::from_utf8` failure on an attribute key or value in `new_attr_map`. -/
  | attrDecode
  /-- "#fraction had no [width]" -/
  | missingWidth
  /-- "failed to parse #fraction[width]" -/
  | widthParse
  /-- "failed to parse style kv: ..." with the collected split parts. -/
  | styleParse (parts : List Str)
  /-- "new_tag_matcher: failed to parse spec" -/
  | badSpec
  /-- "unexpected close tag" -/
  | unexpectedClose
  /-- "unexpected X close tag, current tag is Y" -/
  | mismatchedClose (closing : Str) (current : Str)
deriving DecidableEq

/-- Association-list model of `HashMap<String, String>`: lookup. -/
def mapGet (k : Str) : List (Str × Str) → Option Str
  | [] => none
  | (k1, v1) :: rest => if k1 = k then some v1 else mapGet k rest

/-- Association-list model of `HashMap<String, String>`: last-write-wins
insert (an existing key's value is replaced, a new key is appended). -/
def mapInsert (k v : Str) : List (Str × Str) → List (Str × Str)
  | [] => [(k, v)]
  | (k1, v1) :: rest => if k1 = k then (k, v) :: rest else (k1, v1) :: mapInsert k v rest

abbrev StrMap := List (Str × Str)

/-- Loop body of `parse_style_map`: each `;`-segment is trimmed and split by
`splitn(2, ":")`; a segment without a `:` yields one part, hence the
`kv.len() != 2` error; otherwise the pair is inserted. -/
def parseStyleSegs : List Str → StrMap → Except Err StrMap
  | [], m => .ok m
  | seg :: rest, m =>
    match splitFirst ':' (rustTrim seg) with
    | none => .error (.styleParse [rustTrim seg])
    | some (k, v) => parseStyleSegs rest (mapInsert k v m)

/-- `parse_style_map` (main.rs): converts an SVG style attribute into a
key-value map, failing on any segment that does not split into two parts. -/
def parse_style_map (style : Str) : Except Err StrMap :=
  parseStyleSegs (splitOnChar ';' style) []

/-- Rendering loop of `map_as_style`: for each entry push `';' k ':' v`. -/
def renderEntries : StrMap → Str
  | [] => []
  | (k, v) :: rest => (';' :: (k ++ ':' :: v)) ++ renderEntries rest

/-- `map_as_style` (main.rs): converts a key-value map into an SVG style
attribute, then strips the leading `';'` separators (`trim_start_matches`). -/
def map_as_style (m : StrMap) : Str :=
  let style := renderEntries m
  if style.length = 0 then [] else style.dropWhile (fun c => c = ';')

/-- Strict UTF-8 decoding of a byte list into characters, mirroring Rust's
`str::from_utf8` (overlong encodings, surrogates and out-of-range code points
are rejected). -/
def utf8Decode : List Nat → Option Str
  | [] => some []
  | b :: rest =>
    if b < 128 then (utf8Decode rest).map (fun t => Char.ofNat b :: t)
    else if b < 194 then none
    else if b ≤ 223 then
      match rest with
      | b1 :: r =>
        if 128 ≤ b1 ∧ b1 ≤ 191 then
          (utf8Decode r).map (fun t => Char.ofNat ((b - 192) * 64 + (b1 - 128)) :: t)
        else none
      | [] => none
    else if b ≤ 239 then
      match rest with
      | b1 :: b2 :: r =>
        if (if b = 224 then 160 else 128) ≤ b1 ∧ b1 ≤ (if b = 237 then 159 else 191) ∧
            128 ≤ b2 ∧ b2 ≤ 191 then
          (utf8Decode r).map
            (fun t => Char.ofNat ((b - 224) * 4096 + (b1 - 128) * 64 + (b2 - 128)) :: t)
        else none
      | _ => none
    else if b ≤ 244 then
      match rest with
      | b1 :: b2 :: b3 :: r =>
        if (if b = 240 then 144 else 128) ≤ b1 ∧ b1 ≤ (if b = 244 then 143 else 191) ∧
            128 ≤ b2 ∧ b2 ≤ 191 ∧ 128 ≤ b3 ∧ b3 ≤ 191 then
          (utf8Decode r).map
            (fun t => Char.ofNat
              ((b - 240) * 262144 + (b1 - 128) * 4096 + (b2 - 128) * 64 + (b3 - 128)) :: t)
        else none
      | _ => none
    else none

/-- UTF-8 encoding of one character. -/
def encodeChar (c : Char) : List Nat :=
  let n := c.toNat
  if n < 128 then [n]
  else if n < 2048 then [192 + n / 64, 128 + n % 64]
  else if n < 65536 then [224 + n / 4096, 128 + n / 64 % 64, 128 + n % 64]
  else [240 + n / 262144, 128 + n / 4096 % 64, 128 + n / 64 % 64, 128 + n % 64]

/-- UTF-8 encoding of a string (how a Rust `String` is laid out as bytes when
written back into the output event). -/
def utf8Encode (s : Str) : List Nat := s.foldr (fun c acc => encodeChar c ++ acc) []

/-- Encode a Lean string literal to bytes. -/
def s2b (s : String) : List Nat := utf8Encode (s2l s)

/-- Exact scaled-decimal model of an `f64` value: `(i, e)` denotes
`i / 10 ^ e`. -/
abbrev Scaled := Int × Nat

/-- Rational value of a scaled decimal. -/
def sval (x : Scaled) : ℚ := (x.1 : ℚ) / (10 : ℚ) ^ x.2

/-- Product of scaled decimals (models `f64` multiplication, exact here). -/
def smul (x y : Scaled) : Scaled := (x.1 * y.1, x.2 + y.2)

/-- Strict order on scaled decimals (models `f64` `<`; agrees with it on the
decimal literals used by the program and the claims). -/
def sLt (x y : Scaled) : Bool :=
  decide (x.1 * (10 : Int) ^ y.2 < y.1 * (10 : Int) ^ x.2)

def digitChar (d : Nat) : Char := Char.ofNat (48 + d)

def digitVal (c : Char) : Nat := c.toNat - 48

/-- Decimal digits of `n`, least significant first, with explicit fuel so
that the definition reduces by iota (`[]` for `0`; any fuel `≥ n` is exact). -/
def natDigitsRevF : Nat → Nat → List Char
  | 0, _ => []
  | f + 1, n => if n = 0 then [] else digitChar (n % 10) :: natDigitsRevF f (n / 10)

/-- Decimal digits of `n`, least significant first (`[]` for `0`). -/
def natDigitsRev (n : Nat) : List Char := natDigitsRevF n n

/-- Decimal rendering of a natural number. -/
def natToString (n : Nat) : Str :=
  if n = 0 then ['0'] else (natDigitsRev n).reverse

/-- Value of a most-significant-first digit string. -/
def natOfDigits (l : Str) : Nat := l.foldl (fun a c => a * 10 + digitVal c) 0

/-- Body of the `f64` literal grammar handled here: `digits`, `digits.digits`,
`digits.` or `.digits` (at least one digit overall). -/
def parseFloatBody (s : Str) : Option (Nat × Nat) :=
  match splitFirst '.' s with
  | none =>
    if s ≠ [] ∧ s.all Char.isDigit = true then some (natOfDigits s, 0) else none
  | some (a, b) =>
    if (a ≠ [] ∨ b ≠ []) ∧ a.all Char.isDigit = true ∧ b.all Char.isDigit = true then
      some (natOfDigits a * 10 ^ b.length + natOfDigits b, b.length)
    else none

/-- `str::parse::<f64>()` on the decimal fragment of its grammar: optional
sign followed by a digit string with an optional point. -/
def parseFloat (s : Str) : Option Scaled :=
  match s with
  | [] => none
  | x :: r =>
    if x = '-' then (parseFloatBody r).map (fun p => (-(p.1 : Int), p.2))
    else if x = '+' then (parseFloatBody r).map (fun p => ((p.1 : Int), p.2))
    else (parseFloatBody (x :: r)).map (fun p => ((p.1 : Int), p.2))

/-- Strip trailing decimal zeros: the scaled decimal with the smallest
exponent denoting the same value. -/
def normScaled : Int → Nat → Scaled
  | i, 0 => (i, 0)
  | i, e + 1 => if i % 10 = 0 then normScaled (i / 10) e else (i, e + 1)

/-- Decimal rendering of a normalized scaled value (sign, integer digits,
point, fraction digits). -/
def renderPlain (i : Int) (e : Nat) : Str :=
  let n := i.natAbs
  let sgn : Str := if i < 0 then ['-'] else []
  if e = 0 then sgn ++ natToString n
  else
    let ds0 := natToString n
    let ds := if ds0.length ≤ e then List.replicate (e + 1 - ds0.length) '0' ++ ds0 else ds0
    sgn ++ (ds.take (ds.length - e) ++ '.' :: ds.drop (ds.length - e))

/-- `f64::to_string` on the model: Rust's `Display` prints the shortest
round-tripping decimal without an exponent; on exact scaled decimals that is
the trailing-zero-stripped decimal expansion. -/
def renderScaled (x : Scaled) : Str :=
  let y := normScaled x.1 x.2
  renderPlain y.1 y.2

/-- `battery_fraction` (main.rs): rescales `width` by `charge` and, when the
charge is low, rewrites the `fill` entry of the `style` attribute.  The Rust
function mutates the map through `&mut` and returns `Result<(), _>`; the model
returns the map together with the optional error, so that mutations already
performed before a failure (the width insert) stay visible, exactly as for the
caller of the Rust function. -/
def battery_fraction (attr_map : StrMap) (charge : Scaled) : StrMap × Option Err :=
  match mapGet (s2l "width") attr_map with
  | none => (attr_map, some .missingWidth)
  | some ws =>
    match parseFloat ws with
    | none => (attr_map, some .widthParse)
    | some w =>
      let w2 := smul w charge
      let m1 := mapInsert (s2l "width") (renderScaled w2) attr_map
      if sLt charge (3, 1) then
        let style := (mapGet (s2l "style") m1).getD []
        match parse_style_map style with
        | .error e => (m1, some e)
        | .ok style_map =>
          let new_fill := if sLt charge (15, 2) then s2l "#ff0000" else s2l "#ff8000"
          let sm1 := mapInsert (s2l "fill") new_fill style_map
          (mapInsert (s2l "style") (map_as_style sm1) m1, none)
      else (m1, none)

/-- The fill entry of the parsed style attribute of a map, when present. -/
def styleFill (m : StrMap) : Option Str :=
  match mapGet (s2l "style") m with
  | none => none
  | some s =>
    match parse_style_map s with
    | .error _ => none
    | .ok sm => mapGet (s2l "fill") sm

/-- `Tag` (tag.rs / main.rs): immutable snapshot of an element's identity. -/
structure Tag where
  name : Str
  id : Str
deriving DecidableEq

/-- `Tag::new`: decode the qualified name (failure is propagated through `?`),
then look for the first attribute whose key decodes to "id" (undecodable keys
compare as "" via `unwrap_or`), and take its value with `unwrap_or("")`. -/
def Tag.new (nameB : List Nat) (attrs : List (List Nat × List Nat)) : Except Err Tag :=
  match utf8Decode nameB with
  | none => .error .nameDecode
  | some n =>
    let idAttr := attrs.find? (fun a => ((utf8Decode a.1).getD []) = s2l "id")
    let i : Str :=
      match idAttr with
      | some a => (utf8Decode a.2).getD []
      | none => []
    .ok ⟨n, i⟩

/-- The two atomic `StackMatcher` variants the program constructs
(`NameMatcher`, `IdMatcher`); the `dyn StackMatcher` trait objects built by
`new_tag_matcher` are closed over exactly these. -/
inductive AtomMatcher
  | nameM (name : Str)
  | idM (id : Str)
deriving DecidableEq

/-- `NameMatcher::matches` / `IdMatcher::matches`: inspect `stack.last()`
(the top of the ancestry stack, the head in this model); an empty stack never
matches. -/
def AtomMatcher.matches : AtomMatcher → List Tag → Bool
  | .nameM n, stack =>
    match stack.head? with
    | none => false
    | some last => decide (last.name = n)
  | .idM i, stack =>
    match stack.head? with
    | none => false
    | some last => decide (last.id = i)

/-- `AndMatcher`: a list of sub-matchers. -/
structure AndMatcher where
  matchers : List AtomMatcher
deriving DecidableEq

/-- `AndMatcher::matches`: true iff every sub-matcher matches. -/
def AndMatcher.matches (am : AndMatcher) (stack : List Tag) : Bool :=
  am.matchers.all (fun m => m.matches stack)

/-- `new_tag_matcher` (matcher.rs / main.rs): split the spec once on `#`
(`unwrap_or((spec, ""))` when there is no `#`), push a `NameMatcher` for a
non-empty left part and an `IdMatcher` for a non-empty right part, and fail
when no matcher was produced. -/
def new_tag_matcher (spec : Str) : Except Err AndMatcher :=
  let p := (splitFirst '#' spec).getD (spec, [])
  let ms : List AtomMatcher :=
    (if p.1 ≠ [] then [.nameM p.1] else []) ++ (if p.2 ≠ [] then [.idM p.2] else [])
  if ms.length = 0 then .error .badSpec else .ok ⟨ms⟩

/-- `new_attr_map` loop: decode each raw attribute pair (`?` on failure) and
insert it, later duplicates overwriting earlier ones. -/
def newAttrMapGo : List (List Nat × List Nat) → StrMap → Except Err StrMap
  | [], m => .ok m
  | (k, v) :: rest, m =>
    match utf8Decode k, utf8Decode v with
    | some ks, some vs => newAttrMapGo rest (mapInsert ks vs m)
    | _, _ => .error .attrDecode

/-- `new_attr_map` (main.rs). -/
def new_attr_map (attrs : List (List Nat × List Nat)) : Except Err StrMap :=
  newAttrMapGo attrs []

/-- Structural events of the stream (quick-xml's `Event`), with raw byte
names and attribute lists; `otherEv` stands for the pass-through kinds
(text, comments, declarations), carrying an opaque payload. -/
inductive XmlEvent
  | emptyEv (name : List Nat) (attrs : List (List Nat × List Nat))
  | startEv (name : List Nat) (attrs : List (List Nat × List Nat))
  | endEv (name : List Nat)
  | otherEv (payload : Nat)
deriving DecidableEq

/-- Events written to the sink. -/
inductive OutEvent
  | emptyOut (name : List Nat) (attrs : List (List Nat × List Nat))
  | startOut (name : List Nat) (attrs : List (List Nat × List Nat))
  | endOut (name : List Nat)
  | otherOut (payload : Nat)
deriving DecidableEq

/-- `process_attributes` (main.rs): derive the tag; elements not matching
"rect#fraction" (matched against the singleton stack `vec![tag]`) are passed
through with their original attributes; if the raw attributes fail to convert
into a map (`let Ok(..) = .. else`), the element is also passed through
unchanged; otherwise `battery_fraction` runs with the constant charge `0.5`
and the transformed map is re-emitted.  The output name is the re-encoded
decoded tag name (`BytesStart::new(tag.name)`). -/
def process_attributes (nameB : List Nat) (attrs : List (List Nat × List Nat)) :
    Except Err OutEvent :=
  match Tag.new nameB attrs with
  | .error e => .error e
  | .ok tag =>
    match new_tag_matcher (s2l "rect#fraction") with
    | .error e => .error e
    | .ok m =>
      if ¬ m.matches [tag] then .ok (.emptyOut (utf8Encode tag.name) attrs)
      else
        match new_attr_map attrs with
        | .error _ => .ok (.emptyOut (utf8Encode tag.name) attrs)
        | .ok attr_map =>
          match battery_fraction attr_map (5, 1) with
          | (_, some e) => .error e
          | (m2, none) =>
            .ok (.emptyOut (utf8Encode tag.name)
              (m2.map (fun kv => (utf8Encode kv.1, utf8Encode kv.2))))

/-- One iteration of the `main` loop: dispatch on the event, update the
ancestry stack, and produce the events written for it. -/
def processEvent (stack : List Tag) : XmlEvent → Except Err (List Tag × List OutEvent)
  | .emptyEv nameB attrs =>
    match process_attributes nameB attrs with
    | .error e => .error e
    | .ok out => .ok (stack, [out])
  | .startEv nameB attrs =>
    match Tag.new nameB attrs with
    | .error e => .error e
    | .ok t => .ok (t :: stack, [.startOut nameB attrs])
  | .endEv nameB =>
    match Tag.new nameB [] with
    | .error e => .error e
    | .ok t =>
      match stack with
      | [] => .error .unexpectedClose
      | last :: rest =>
        if t.name ≠ last.name then .error (.mismatchedClose t.name last.name)
        else .ok (rest, [.endOut nameB])
  | .otherEv p => .ok (stack, [.otherOut p])

/-- The `main` event loop: consume events until end of input (`Event::Eof`
breaks the loop); on an error the pass aborts, keeping the output written so
far.  Returns the output, the final stack and the error, if any. -/
def runLoop : List XmlEvent → List Tag → List OutEvent →
    List OutEvent × List Tag × Option Err
  | [], stack, out => (out, stack, none)
  | ev :: rest, stack, out =>
    match processEvent stack ev with
    | .error e => (out, stack, some e)
    | .ok (stack2, outs) => runLoop rest stack2 (out ++ outs)

/-! Basic properties of the string-splitting primitives. -/

theorem splitOnChar_ne_nil (c : Char) (s : Str) : splitOnChar c s ≠ [] := by
  cases s with
  | nil => simp [splitOnChar]
  | cons x xs =>
    simp only [splitOnChar]
    cases h : splitOnChar c xs with
    | nil => simp
    | cons y ys => by_cases hx : x = c <;> simp [hx]

theorem not_mem_of_mem_splitOnChar {c : Char} {s : Str} :
    ∀ t ∈ splitOnChar c s, c ∉ t := by
  induction s with
  | nil => intro t ht; simp [splitOnChar] at ht; simp [ht]
  | cons x xs ih =>
    intro t ht
    simp only [splitOnChar] at ht
    cases h : splitOnChar c xs with
    | nil => exact absurd h (splitOnChar_ne_nil c xs)
    | cons y ys =>
      rw [h] at ht
      by_cases hx : x = c
      · simp only [hx, if_pos rfl] at ht
        rcases List.mem_cons.1 ht with rfl | ht'
        · simp
        · exact ih t (h ▸ ht')
      · simp only [if_neg hx] at ht
        rcases List.mem_cons.1 ht with rfl | ht'
        · intro hc
          rcases List.mem_cons.1 hc with rfl | hc'
          · exact hx rfl
          · exact ih y (h ▸ List.mem_cons_self y ys) hc'
        · exact ih t (h ▸ List.mem_cons_of_mem y ht')

theorem splitOnChar_cons_self (c : Char) (s : Str) :
    splitOnChar c (c :: s) = [] :: splitOnChar c s := by
  simp only [splitOnChar]
  cases h : splitOnChar c s with
  | nil => exact absurd h (splitOnChar_ne_nil c s)
  | cons y ys => simp

theorem splitOnChar_append {c : Char} {a b : Str} (ha : c ∉ a) {y : Str} {ys : List Str}
    (hb : splitOnChar c b = y :: ys) : splitOnChar c (a ++ b) = (a ++ y) :: ys := by
  induction a with
  | nil => simpa using hb
  | cons x a' ih =>
    have hx : x ≠ c := fun h => ha (h ▸ List.mem_cons_self x a')
    have ha' : c ∉ a' := fun h => ha (List.mem_cons_of_mem x h)
    simp only [List.cons_append, splitOnChar, List.append_eq, ih ha', if_neg hx]

theorem splitFirst_eq_none {c : Char} {s : Str} : splitFirst c s = none ↔ c ∉ s := by
  induction s with
  | nil => simp [splitFirst]
  | cons x xs ih =>
    simp only [splitFirst]
    by_cases hx : x = c
    · simp [hx]
    · rw [if_neg hx]
      cases h : splitFirst c xs with
      | none =>
        constructor
        · intro _ hor
          rcases List.mem_cons.1 hor with rfl | hmem
          · exact hx rfl
          · exact (ih.1 h) hmem
        · intro _; rfl
      | some p =>
        obtain ⟨a, b⟩ := p
        constructor
        · intro hh; cases hh
        · intro hc
          exfalso
          have hcx : c ∈ xs := by
            by_contra hnot
            have h2 := ih.2 hnot
            rw [h] at h2
            cases h2
          exact hc (List.mem_cons_of_mem x hcx)

theorem splitFirst_eq_some {c : Char} {s a b : Str} (h : splitFirst c s = some (a, b)) :
    s = a ++ c :: b ∧ c ∉ a := by
  induction s generalizing a b with
  | nil => cases h
  | cons x xs ih =>
    simp only [splitFirst] at h
    by_cases hx : x = c
    · rw [if_pos hx] at h
      cases h
      subst hx
      simp
    · rw [if_neg hx] at h
      cases hsp : splitFirst c xs with
      | none => rw [hsp] at h; cases h
      | some p =>
        rw [hsp] at h
        cases p with
        | mk a' b' =>
          cases h
          obtain ⟨hs, hna⟩ := ih hsp
          constructor
          · simp [hs]
          · intro hc
            rcases List.mem_cons.1 hc with rfl | hc'
            · exact hx rfl
            · exact hna hc'

theorem splitFirst_append {c : Char} {a : Str} (b : Str) (ha : c ∉ a) :
    splitFirst c (a ++ c :: b) = some (a, b) := by
  induction a with
  | nil => simp [splitFirst]
  | cons x a' ih =>
    have hx : x ≠ c := fun h => ha (h ▸ List.mem_cons_self x a')
    have ha' : c ∉ a' := fun h => ha (List.mem_cons_of_mem x h)
    simp only [List.cons_append, splitFirst, List.append_eq, if_neg hx, ih ha']

/-! Properties of `rustTrim`. -/

theorem mem_dropWhile_of_not {α : Type} {p : α → Bool} {l : List α} {x : α}
    (hx : x ∈ l) (hp : p x = false) : x ∈ l.dropWhile p := by
  induction l with
  | nil => cases hx
  | cons y ys ih =>
    by_cases hy : p y = true
    · rw [List.dropWhile_cons_of_pos hy]
      rcases List.mem_cons.1 hx with rfl | hmem
      · rw [hp] at hy; cases hy
      · exact ih hmem
    · rw [List.dropWhile_cons_of_neg hy]
      exact hx

theorem dropWhile_head_false {α : Type} {p : α → Bool} {l : List α} {x : α} {xs : List α}
    (h : l.dropWhile p = x :: xs) : p x = false := by
  induction l with
  | nil => cases h
  | cons y ys ih =>
    by_cases hy : p y = true
    · rw [List.dropWhile_cons_of_pos hy] at h
      exact ih h
    · rw [List.dropWhile_cons_of_neg hy] at h
      cases h
      exact Bool.not_eq_true _ ▸ (by simpa using hy)

theorem dropWhile_eq_self_of_head {α : Type} {p : α → Bool} {l : List α}
    (h : ∀ y, l.head? = some y → p y = false) : l.dropWhile p = l := by
  cases l with
  | nil => rfl
  | cons y ys =>
    have := h y rfl
    rw [List.dropWhile_cons_of_neg (by simp [this])]

theorem mem_of_mem_rustTrim {s : Str} {c : Char} (h : c ∈ rustTrim s) : c ∈ s := by
  unfold rustTrim at h
  rw [List.mem_reverse] at h
  have h2 := (List.dropWhile_suffix isRustWhitespace).sublist.subset h
  rw [List.mem_reverse] at h2
  exact (List.dropWhile_suffix isRustWhitespace).sublist.subset h2

theorem mem_rustTrim_of_not_ws {s : Str} {c : Char} (hc : c ∈ s)
    (hw : isRustWhitespace c = false) : c ∈ rustTrim s := by
  unfold rustTrim
  rw [List.mem_reverse]
  apply mem_dropWhile_of_not _ hw
  rw [List.mem_reverse]
  exact mem_dropWhile_of_not hc hw

theorem rustTrim_head_not_ws {s t : Str} {c : Char} (h : rustTrim s = c :: t) :
    isRustWhitespace c = false := by
  unfold rustTrim at h
  obtain ⟨w, hw⟩ := (List.dropWhile_suffix (l := (s.dropWhile isRustWhitespace).reverse)
    isRustWhitespace)
  have hu : s.dropWhile isRustWhitespace =
      ((s.dropWhile isRustWhitespace).reverse.dropWhile isRustWhitespace).reverse ++
        w.reverse := by
    conv_lhs => rw [← List.reverse_reverse (s.dropWhile isRustWhitespace), ← hw]
    simp
  rw [h] at hu
  exact dropWhile_head_false hu

theorem rustTrim_getLast_not_ws {s : Str} {c : Char}
    (h : (rustTrim s).getLast? = some c) : isRustWhitespace c = false := by
  unfold rustTrim at h
  rw [List.getLast?_reverse] at h
  cases hv : (s.dropWhile isRustWhitespace).reverse.dropWhile isRustWhitespace with
  | nil => rw [hv] at h; cases h
  | cons y ys =>
    rw [hv] at h
    cases h
    exact dropWhile_head_false hv

theorem rustTrim_eq_self {s : Str}
    (h1 : ∀ c, s.head? = some c → isRustWhitespace c = false)
    (h2 : ∀ c, s.getLast? = some c → isRustWhitespace c = false) :
    rustTrim s = s := by
  unfold rustTrim
  rw [dropWhile_eq_self_of_head h1]
  rw [dropWhile_eq_self_of_head (fun y hy => h2 y (by rwa [← List.head?_reverse]))]
  exact List.reverse_reverse s

/-! Properties of the association-list map. -/

def mapKeys (m : StrMap) : List Str := m.map Prod.fst

theorem mapGet_insert_self (k v : Str) (m : StrMap) : mapGet k (mapInsert k v m) = some v := by
  induction m with
  | nil => simp [mapInsert, mapGet]
  | cons kv rest ih =>
    obtain ⟨k1, v1⟩ := kv
    by_cases h : k1 = k
    · simp [mapInsert, h, mapGet]
    · simp [mapInsert, h, mapGet, ih]

theorem mapGet_insert_other {k k1 : Str} (hne : k1 ≠ k) (v : Str) (m : StrMap) :
    mapGet k (mapInsert k1 v m) = mapGet k m := by
  induction m with
  | nil => simp [mapInsert, mapGet, hne]
  | cons kv rest ih =>
    obtain ⟨k2, v2⟩ := kv
    by_cases h : k2 = k1
    · rw [show mapInsert k1 v ((k2, v2) :: rest) = (k1, v) :: rest by simp [mapInsert, h]]
      subst h
      simp [mapGet, hne]
    · rw [show mapInsert k1 v ((k2, v2) :: rest) = (k2, v2) :: mapInsert k1 v rest by
        simp [mapInsert, h]]
      by_cases h2 : k2 = k <;> simp [mapGet, h2, ih]

theorem mapInsert_ne_nil (k v : Str) (m : StrMap) : mapInsert k v m ≠ [] := by
  cases m with
  | nil => simp [mapInsert]
  | cons kv rest =>
    obtain ⟨k1, v1⟩ := kv
    by_cases h : k1 = k <;> simp [mapInsert, h]

theorem mem_mapInsert {k v : Str} {m : StrMap} :
    ∀ kv ∈ mapInsert k v m, kv = (k, v) ∨ kv ∈ m := by
  induction m with
  | nil => intro kv h; simp [mapInsert] at h; left; exact h
  | cons p rest ih =>
    obtain ⟨k1, v1⟩ := p
    intro kv h
    by_cases hk : k1 = k
    · simp only [mapInsert, if_pos hk] at h
      rcases List.mem_cons.1 h with rfl | h'
      · left; rfl
      · right; exact List.mem_cons_of_mem _ h'
    · simp only [mapInsert, if_neg hk] at h
      rcases List.mem_cons.1 h with rfl | h'
      · right; exact List.mem_cons_self _ _
      · rcases ih kv h' with h2 | h2
        · left; exact h2
        · right; exact List.mem_cons_of_mem _ h2

theorem mapKeys_insert_subset {k v : Str} {m : StrMap} :
    ∀ x ∈ mapKeys (mapInsert k v m), x = k ∨ x ∈ mapKeys m := by
  intro x hx
  simp only [mapKeys, List.mem_map] at hx
  obtain ⟨kv, hkv, rfl⟩ := hx
  rcases mem_mapInsert kv hkv with rfl | h
  · left; rfl
  · right; exact List.mem_map_of_mem Prod.fst h

theorem mapKeys_insert_nodup {k v : Str} {m : StrMap} (h : (mapKeys m).Nodup) :
    (mapKeys (mapInsert k v m)).Nodup := by
  induction m with
  | nil => simp [mapInsert, mapKeys]
  | cons p rest ih =>
    obtain ⟨k1, v1⟩ := p
    simp only [mapKeys, List.map_cons, List.nodup_cons] at h
    by_cases hk : k1 = k
    · simp only [mapInsert, if_pos hk, mapKeys, List.map_cons, List.nodup_cons]
      exact ⟨hk ▸ h.1, h.2⟩
    · simp only [mapInsert, if_neg hk, mapKeys, List.map_cons, List.nodup_cons]
      refine ⟨?_, ih h.2⟩
      intro hmem
      rcases mapKeys_insert_subset k1 hmem with h2 | h2
      · exact hk h2
      · exact h.1 h2

theorem mapInsert_append {k v : Str} {m : StrMap} (h : k ∉ mapKeys m) :
    mapInsert k v m = m ++ [(k, v)] := by
  induction m with
  | nil => rfl
  | cons p rest ih =>
    obtain ⟨k1, v1⟩ := p
    simp only [mapKeys, List.map_cons, List.mem_cons] at h
    push_neg at h
    have hne : ¬ (k1 = k) := fun hh => h.1 hh.symm
    simp only [mapInsert, if_neg hne, List.cons_append]
    exact congrArg _ (ih h.2)

/-! Shape of the entries produced by `parse_style_map`, and the
parse/render round trip. -/

/-- The serialized form of one style entry. -/
def segOf (kv : Str × Str) : Str := kv.1 ++ ':' :: kv.2

/-- Invariant of every entry `parse_style_map` produces: the key holds no
separator and no colon, the value holds no separator, the key does not start
with whitespace and the value does not end with whitespace. -/
def EntryWF (kv : Str × Str) : Prop :=
  ';' ∉ kv.1 ∧ ':' ∉ kv.1 ∧ ';' ∉ kv.2 ∧
  (∀ c, kv.1.head? = some c → isRustWhitespace c = false) ∧
  (∀ c, kv.2.getLast? = some c → isRustWhitespace c = false)

theorem not_sep_mem_segOf {kv : Str × Str} (h : EntryWF kv) : ';' ∉ segOf kv := by
  intro hmem
  rcases List.mem_append.1 hmem with hk | hv
  · exact h.1 hk
  · rcases List.mem_cons.1 hv with hc | hv'
    · cases hc
    · exact h.2.2.1 hv'

theorem rustTrim_segOf {kv : Str × Str} (h : EntryWF kv) : rustTrim (segOf kv) = segOf kv := by
  apply rustTrim_eq_self
  · intro c hc
    obtain ⟨k, v⟩ := kv
    cases k with
    | nil =>
      simp only [segOf, List.nil_append, List.head?_cons] at hc
      cases hc
      decide
    | cons x k' =>
      simp only [segOf, List.cons_append, List.head?_cons] at hc
      cases hc
      exact h.2.2.2.1 _ rfl
  · intro c hc
    obtain ⟨k, v⟩ := kv
    cases v with
    | nil =>
      rw [show segOf (k, []) = k ++ [':'] from rfl] at hc
      rw [List.getLast?_append_cons] at hc
      cases hc
      decide
    | cons x v' =>
      rw [show segOf (k, x :: v') = k ++ ':' :: x :: v' from rfl] at hc
      rw [List.getLast?_append_cons, List.getLast?_cons_cons] at hc
      exact h.2.2.2.2 c hc

theorem splitFirst_segOf {kv : Str × Str} (h : EntryWF kv) :
    splitFirst ':' (segOf kv) = some kv := by
  obtain ⟨k, v⟩ := kv
  exact splitFirst_append v h.2.1

/-- Every map produced by a successful `parse_style_map` has well-formed
entries, pairwise-distinct keys, and is non-empty. -/
theorem parseStyleSegs_wf :
    ∀ (segs : List Str) (acc m : StrMap),
      (∀ seg ∈ segs, ';' ∉ seg) → (∀ kv ∈ acc, EntryWF kv) → (mapKeys acc).Nodup →
      parseStyleSegs segs acc = .ok m →
      (∀ kv ∈ m, EntryWF kv) ∧ (mapKeys m).Nodup ∧ (acc ≠ [] ∨ segs ≠ [] → m ≠ []) := by
  intro segs
  induction segs with
  | nil =>
    intro acc m _ hwf hnd h
    simp only [parseStyleSegs] at h
    cases h
    exact ⟨hwf, hnd, fun hor => by rcases hor with h1 | h1 <;> simp_all⟩
  | cons seg rest ih =>
    intro acc m hsep hwf hnd h
    simp only [parseStyleSegs] at h
    cases hsp : splitFirst ':' (rustTrim seg) with
    | none => rw [hsp] at h; cases h
    | some p =>
      obtain ⟨k, v⟩ := p
      rw [hsp] at h
      obtain ⟨htr, hnk⟩ := splitFirst_eq_some hsp
      have hseg : ';' ∉ seg := hsep seg (List.mem_cons_self _ _)
      have hwfkv : EntryWF (k, v) := by
        refine ⟨?_, hnk, ?_, ?_, ?_⟩
        · intro hmem
          exact hseg (mem_of_mem_rustTrim (htr ▸ List.mem_append_left _ hmem))
        · intro hmem
          exact hseg (mem_of_mem_rustTrim
            (htr ▸ List.mem_append_right _ (List.mem_cons_of_mem _ hmem)))
        · intro c hc
          cases k with
          | nil => cases hc
          | cons x k' =>
            cases hc
            exact rustTrim_head_not_ws htr
        · intro c hc
          apply rustTrim_getLast_not_ws (s := seg)
          rw [htr]
          cases v with
          | nil => cases hc
          | cons x v' =>
            rw [List.getLast?_append_cons, List.getLast?_cons_cons]
            exact hc
      have hres := ih (mapInsert k v acc) m
        (fun s hs => hsep s (List.mem_cons_of_mem _ hs))
        (fun kv hkv => by
          rcases mem_mapInsert kv hkv with rfl | hkv'
          · exact hwfkv
          · exact hwf kv hkv')
        (mapKeys_insert_nodup hnd) h
      refine ⟨hres.1, hres.2.1, fun _ => ?_⟩
      exact hres.2.2 (Or.inl (mapInsert_ne_nil k v acc))

theorem parse_style_map_wf {s : Str} {m : StrMap} (h : parse_style_map s = .ok m) :
    (∀ kv ∈ m, EntryWF kv) ∧ (mapKeys m).Nodup ∧ m ≠ [] := by
  have := parseStyleSegs_wf (splitOnChar ';' s) [] m
    (fun seg hs => not_mem_of_mem_splitOnChar seg hs)
    (by intro kv hkv; cases hkv) (by simp [mapKeys]) h
  exact ⟨this.1, this.2.1, this.2.2 (Or.inr (splitOnChar_ne_nil ';' s))⟩

theorem renderEntries_split {m : StrMap} (hwf : ∀ kv ∈ m, EntryWF kv) :
    splitOnChar ';' (renderEntries m) = [] :: m.map segOf := by
  induction m with
  | nil => simp [renderEntries, splitOnChar]
  | cons kv rest ih =>
    obtain ⟨k, v⟩ := kv
    have hkv : EntryWF (k, v) := hwf _ (List.mem_cons_self _ _)
    have hrest : ∀ p ∈ rest, EntryWF p := fun p hp => hwf p (List.mem_cons_of_mem _ hp)
    rw [show renderEntries ((k, v) :: rest) = ';' :: (segOf (k, v) ++ renderEntries rest)
      from rfl]
    rw [splitOnChar_cons_self]
    rw [splitOnChar_append (not_sep_mem_segOf hkv) (ih hrest)]
    simp

theorem segOf_head_ne_sep {kv : Str × Str} (h : EntryWF kv) {x : Char} {xs : Str}
    (hx : segOf kv = x :: xs) : ¬ (x = ';') := by
  obtain ⟨k, v⟩ := kv
  cases k with
  | nil =>
    simp only [segOf, List.nil_append] at hx
    cases hx
    decide
  | cons y k' =>
    simp only [segOf, List.cons_append] at hx
    cases hx
    intro hy
    exact h.1 (hy ▸ List.mem_cons_self _ _)

theorem map_as_style_cons {kv : Str × Str} {rest : StrMap} (hkv : EntryWF kv) :
    map_as_style (kv :: rest) = segOf kv ++ renderEntries rest := by
  obtain ⟨k, v⟩ := kv
  rw [show map_as_style ((k, v) :: rest) =
    (if (renderEntries ((k, v) :: rest)).length = 0 then []
     else (renderEntries ((k, v) :: rest)).dropWhile (fun c => c = ';')) from rfl]
  rw [show renderEntries ((k, v) :: rest) = ';' :: (segOf (k, v) ++ renderEntries rest)
    from rfl]
  rw [if_neg (by simp)]
  rw [List.dropWhile_cons_of_pos (by simp)]
  cases hx : segOf (k, v) ++ renderEntries rest with
  | nil =>
    exfalso
    have : segOf (k, v) ≠ [] := by
      simp only [segOf]
      intro hh
      exact absurd (congrArg List.length hh) (by simp)
    rcases List.append_eq_nil.1 hx with ⟨h1, _⟩
    exact this h1
  | cons x xs =>
    rcases hseg : segOf (k, v) with _ | ⟨y, ys⟩
    · exfalso
      exact absurd (congrArg List.length hseg) (by simp [segOf])
    · have hy := segOf_head_ne_sep hkv hseg
      rw [hseg] at hx
      simp only [List.cons_append] at hx
      cases hx
      rw [List.dropWhile_cons_of_neg (by simpa using hy)]

theorem parseStyleSegs_render :
    ∀ (m acc : StrMap), (∀ kv ∈ m, EntryWF kv) → (mapKeys m).Nodup →
      (∀ x ∈ mapKeys m, x ∉ mapKeys acc) →
      parseStyleSegs (m.map segOf) acc = .ok (acc ++ m) := by
  intro m
  induction m with
  | nil => intro acc _ _ _; simp [parseStyleSegs]
  | cons kv rest ih =>
    intro acc hwf hnd hdisj
    obtain ⟨k, v⟩ := kv
    have hkv : EntryWF (k, v) := hwf _ (List.mem_cons_self _ _)
    simp only [List.map_cons, parseStyleSegs]
    rw [rustTrim_segOf hkv, splitFirst_segOf hkv]
    show parseStyleSegs (List.map segOf rest) (mapInsert k v acc) =
      Except.ok (acc ++ (k, v) :: rest)
    have hknotacc : k ∉ mapKeys acc :=
      hdisj k (by simp [mapKeys])
    rw [mapInsert_append hknotacc]
    have hnd' : (mapKeys rest).Nodup := by
      simp only [mapKeys, List.map_cons, List.nodup_cons] at hnd
      exact hnd.2
    have hknotrest : k ∉ mapKeys rest := by
      simp only [mapKeys, List.map_cons, List.nodup_cons] at hnd
      exact hnd.1
    rw [ih (acc ++ [(k, v)]) (fun p hp => hwf p (List.mem_cons_of_mem _ hp)) hnd'
      (fun x hx => by
        intro hmem
        have : mapKeys (acc ++ [(k, v)]) = mapKeys acc ++ [k] := by
          simp [mapKeys]
        rw [this] at hmem
        rcases List.mem_append.1 hmem with h1 | h1
        · exact hdisj x (by simp only [mapKeys, List.map_cons]
                            exact List.mem_cons_of_mem _ hx) h1
        · rcases List.mem_singleton.1 h1 with rfl
          exact hknotrest hx)]
    simp

/-- Round trip at the heart of the style codec: rendering a map produced by
`parse_style_map` and parsing the result reproduces the map exactly. -/
theorem style_roundtrip {m : StrMap} (hwf : ∀ kv ∈ m, EntryWF kv)
    (hnd : (mapKeys m).Nodup) (hne : m ≠ []) :
    parse_style_map (map_as_style m) = .ok m := by
  cases m with
  | nil => exact absurd rfl hne
  | cons kv rest =>
    have hkv : EntryWF kv := hwf _ (List.mem_cons_self _ _)
    have hrest : ∀ p ∈ rest, EntryWF p := fun p hp => hwf p (List.mem_cons_of_mem _ hp)
    unfold parse_style_map
    rw [map_as_style_cons hkv]
    rw [splitOnChar_append (not_sep_mem_segOf hkv) (renderEntries_split hrest)]
    rw [List.append_nil]
    have : segOf kv :: rest.map segOf = (kv :: rest).map segOf := by simp
    rw [this]
    rw [parseStyleSegs_render (kv :: rest) [] hwf hnd (by intro x _ hx; cases hx)]
    simp

/-! Digit strings: the value/rendering round trip. -/

theorem digitVal_digitChar {d : Nat} (h : d < 10) : digitVal (digitChar d) = d := by
  interval_cases d <;> decide

theorem digitChar_isDigit {d : Nat} (h : d < 10) : (digitChar d).isDigit = true := by
  interval_cases d <;> decide

theorem natOfDigits_foldl (l : Str) :
    ∀ a : Nat, l.foldl (fun x c => x * 10 + digitVal c) a = a * 10 ^ l.length + natOfDigits l := by
  induction l with
  | nil => intro a; simp [natOfDigits]
  | cons c t ih =>
    intro a
    have h1 : natOfDigits (c :: t) =
        List.foldl (fun x c => x * 10 + digitVal c) (digitVal c) t := by
      simp [natOfDigits]
    rw [List.foldl_cons, ih (a * 10 + digitVal c), h1, ih (digitVal c), List.length_cons]
    ring

theorem natOfDigits_append (a b : Str) :
    natOfDigits (a ++ b) = natOfDigits a * 10 ^ b.length + natOfDigits b := by
  rw [show natOfDigits (a ++ b) = (a ++ b).foldl (fun x c => x * 10 + digitVal c) 0 from rfl]
  rw [List.foldl_append, show a.foldl (fun x c => x * 10 + digitVal c) 0 = natOfDigits a
    from rfl]
  exact natOfDigits_foldl b (natOfDigits a)

theorem natOfDigits_cons (c : Char) (t : Str) :
    natOfDigits (c :: t) = digitVal c * 10 ^ t.length + natOfDigits t := by
  have h1 : natOfDigits (c :: t) =
      List.foldl (fun x c => x * 10 + digitVal c) (digitVal c) t := by
    simp [natOfDigits]
  rw [h1, natOfDigits_foldl]

theorem natOfDigits_replicate_zero (k : Nat) (l : Str) :
    natOfDigits (List.replicate k '0' ++ l) = natOfDigits l := by
  rw [natOfDigits_append]
  have h0 : natOfDigits (List.replicate k '0') = 0 := by
    induction k with
    | zero => rfl
    | succ n ih =>
      rw [List.replicate_succ, natOfDigits_cons, ih]
      have hz : digitVal '0' = 0 := by decide
      rw [hz]
      simp
  rw [h0]
  simp

theorem natDigitsRevF_val : ∀ f n : Nat, n ≤ f →
    natOfDigits ((natDigitsRevF f n).reverse) = n := by
  intro f
  induction f with
  | zero =>
    intro n hn
    have : n = 0 := Nat.le_zero.1 hn
    subst this
    rfl
  | succ f ih =>
    intro n hn
    by_cases h0 : n = 0
    · subst h0; rfl
    · simp only [natDigitsRevF, if_neg h0]
      rw [List.reverse_cons, natOfDigits_append]
      have hdiv : n / 10 ≤ f := by
        have hx : n / 10 < n := Nat.div_lt_self (Nat.pos_of_ne_zero h0) (by decide)
        omega
      rw [ih (n / 10) hdiv]
      rw [show natOfDigits [digitChar (n % 10)] = digitVal (digitChar (n % 10)) from by
        rw [natOfDigits_cons]; simp [natOfDigits]]
      have hlt : n % 10 < 10 := Nat.mod_lt _ (by decide)
      rw [digitVal_digitChar hlt]
      simp only [List.length_singleton, pow_one]
      omega

theorem natDigitsRevF_all_digit : ∀ f n : Nat, ∀ c ∈ natDigitsRevF f n, c.isDigit = true := by
  intro f
  induction f with
  | zero => intro n c hc; cases hc
  | succ f ih =>
    intro n c hc
    by_cases h0 : n = 0
    · subst h0; cases hc
    · simp only [natDigitsRevF, if_neg h0] at hc
      rcases List.mem_cons.1 hc with rfl | hc'
      · have hlt : n % 10 < 10 := Nat.mod_lt _ (by decide)
        exact digitChar_isDigit hlt
      · exact ih (n / 10) c hc'

theorem natToString_all_digit (n : Nat) : ∀ c ∈ natToString n, c.isDigit = true := by
  intro c hc
  unfold natToString at hc
  by_cases h0 : n = 0
  · rw [if_pos h0] at hc
    rcases List.mem_singleton.1 hc with rfl
    decide
  · rw [if_neg h0, List.mem_reverse] at hc
    exact natDigitsRevF_all_digit n n c hc

theorem natToString_ne_nil (n : Nat) : natToString n ≠ [] := by
  unfold natToString
  by_cases h0 : n = 0
  · rw [if_pos h0]; simp
  · rw [if_neg h0]
    unfold natDigitsRev
    cases n with
    | zero => exact absurd rfl h0
    | succ m =>
      simp only [natDigitsRevF, if_neg h0]
      simp

theorem natOfDigits_natToString (n : Nat) : natOfDigits (natToString n) = n := by
  unfold natToString
  by_cases h0 : n = 0
  · rw [if_pos h0, h0]; rfl
  · rw [if_neg h0]
    exact natDigitsRevF_val n n le_rfl

theorem not_dot_of_all_digit {l : Str} (h : l.all Char.isDigit = true) : '.' ∉ l := by
  intro hm
  have := List.all_eq_true.1 h _ hm
  exact absurd this (by decide)

/-! Scaled decimals: value lemmas and the parse/render round trip. -/

theorem sval_smul (x y : Scaled) : sval (smul x y) = sval x * sval y := by
  simp only [sval, smul]
  push_cast
  rw [pow_add, div_mul_div_comm]

theorem sval_normScaled (i : Int) (e : Nat) : sval (normScaled i e) = sval (i, e) := by
  induction e generalizing i with
  | zero => rfl
  | succ e ih =>
    simp only [normScaled]
    by_cases h : i % 10 = 0
    · rw [if_pos h, ih]
      obtain ⟨k, hk⟩ : (10 : Int) ∣ i := Int.dvd_of_emod_eq_zero h
      subst hk
      rw [Int.mul_ediv_cancel_left _ (by decide)]
      simp only [sval]
      push_cast
      rw [pow_succ]
      field_simp
      ring
    · rw [if_neg h]

theorem parseFloatBody_natToString (n : Nat) : parseFloatBody (natToString n) = some (n, 0) := by
  have hall : (natToString n).all Char.isDigit = true :=
    List.all_eq_true.2 (fun c hc => natToString_all_digit n c hc)
  have hsp : splitFirst '.' (natToString n) = none :=
    splitFirst_eq_none.2 (not_dot_of_all_digit hall)
  simp only [parseFloatBody, hsp]
  rw [if_pos ⟨natToString_ne_nil n, hall⟩, natOfDigits_natToString]

theorem parseFloat_cons_digit {c : Char} {t : Str} (h : c.isDigit = true) :
    parseFloat (c :: t) = (parseFloatBody (c :: t)).map (fun p => ((p.1 : Int), p.2)) := by
  have h1 : ¬ (c = '-') := fun hh => by rw [hh] at h; exact absurd h (by decide)
  have h2 : ¬ (c = '+') := fun hh => by rw [hh] at h; exact absurd h (by decide)
  simp only [parseFloat, if_neg h1, if_neg h2]

theorem parseFloat_renderPlain (i : Int) (e : Nat) : parseFloat (renderPlain i e) = some (i, e) := by
  by_cases he : e = 0
  · subst he
    rw [show renderPlain i 0 = (if i < 0 then ['-'] else []) ++ natToString i.natAbs from rfl]
    by_cases hi : i < 0
    · rw [if_pos hi]
      rw [show (['-'] : Str) ++ natToString i.natAbs = '-' :: natToString i.natAbs from rfl]
      rw [show parseFloat ('-' :: natToString i.natAbs) =
        (parseFloatBody (natToString i.natAbs)).map (fun p => (-(p.1 : Int), p.2)) from rfl]
      rw [parseFloatBody_natToString]
      simp only [Option.map_some']
      have : -(i.natAbs : Int) = i := by omega
      rw [this]
    · rw [if_neg hi, List.nil_append]
      cases hns : natToString i.natAbs with
      | nil => exact absurd hns (natToString_ne_nil _)
      | cons c t =>
        have hcd : c.isDigit = true := natToString_all_digit _ c (hns ▸ List.mem_cons_self c t)
        rw [parseFloat_cons_digit hcd, ← hns, parseFloatBody_natToString]
        simp only [Option.map_some']
        have : (i.natAbs : Int) = i := by omega
        rw [this]
  · -- fractional rendering
    have he1 : 1 ≤ e := Nat.one_le_iff_ne_zero.2 he
    rw [show renderPlain i e =
      (if i < 0 then ['-'] else []) ++
        ((if (natToString i.natAbs).length ≤ e then
            List.replicate (e + 1 - (natToString i.natAbs).length) '0' ++ natToString i.natAbs
          else natToString i.natAbs).take
            ((if (natToString i.natAbs).length ≤ e then
                List.replicate (e + 1 - (natToString i.natAbs).length) '0' ++
                  natToString i.natAbs
              else natToString i.natAbs).length - e) ++
          '.' ::
            (if (natToString i.natAbs).length ≤ e then
                List.replicate (e + 1 - (natToString i.natAbs).length) '0' ++
                  natToString i.natAbs
              else natToString i.natAbs).drop
              ((if (natToString i.natAbs).length ≤ e then
                  List.replicate (e + 1 - (natToString i.natAbs).length) '0' ++
                    natToString i.natAbs
                else natToString i.natAbs).length - e)) from by
        simp only [renderPlain, if_neg he]]
    set ds0 := natToString i.natAbs with hds0
    set ds : Str := if ds0.length ≤ e then List.replicate (e + 1 - ds0.length) '0' ++ ds0
      else ds0 with hds
    have hds0ne : ds0 ≠ [] := natToString_ne_nil _
    have hds0len : 1 ≤ ds0.length := by
      cases h : ds0 with
      | nil => exact absurd h hds0ne
      | cons a b => simp [h]
    have hdslen : e + 1 ≤ ds.length := by
      rw [hds]
      by_cases hc : ds0.length ≤ e
      · rw [if_pos hc]
        simp only [List.length_append, List.length_replicate]
        omega
      · rw [if_neg hc]
        omega
    have hdsdigit : ds.all Char.isDigit = true := by
      apply List.all_eq_true.2
      intro c hc
      rw [hds] at hc
      by_cases hcc : ds0.length ≤ e
      · rw [if_pos hcc] at hc
        rcases List.mem_append.1 hc with hrep | hmem
        · rcases List.eq_of_mem_replicate hrep with rfl
          decide
        · exact natToString_all_digit _ c hmem
      · rw [if_neg hcc] at hc
        exact natToString_all_digit _ c hc
    have hvalds : natOfDigits ds = i.natAbs := by
      rw [hds]
      by_cases hcc : ds0.length ≤ e
      · rw [if_pos hcc, natOfDigits_replicate_zero, hds0]
        exact natOfDigits_natToString _
      · rw [if_neg hcc, hds0]
        exact natOfDigits_natToString _
    set A := ds.take (ds.length - e) with hA
    set B := ds.drop (ds.length - e) with hB
    have hAB : A ++ B = ds := List.take_append_drop _ ds
    have hAdigit : A.all Char.isDigit = true := by
      apply List.all_eq_true.2
      intro c hc
      exact List.all_eq_true.1 hdsdigit c ((List.take_sublist _ _).subset hc)
    have hBdigit : B.all Char.isDigit = true := by
      apply List.all_eq_true.2
      intro c hc
      exact List.all_eq_true.1 hdsdigit c ((List.drop_sublist _ _).subset hc)
    have hBlen : B.length = e := by
      rw [hB, List.length_drop]
      omega
    have hAlen : 1 ≤ A.length := by
      rw [hA, List.length_take]
      omega
    have hAne : A ≠ [] := by
      cases h : A with
      | nil => rw [h] at hAlen; cases hAlen
      | cons a b => simp
    have hbody : parseFloatBody (A ++ '.' :: B) = some (i.natAbs, e) := by
      have hsp : splitFirst '.' (A ++ '.' :: B) = some (A, B) :=
        splitFirst_append B (not_dot_of_all_digit hAdigit)
      simp only [parseFloatBody, hsp]
      rw [if_pos ⟨Or.inl hAne, hAdigit, hBdigit⟩]
      rw [← natOfDigits_append]
      rw [show natOfDigits (A ++ B) = natOfDigits ds from by rw [hAB]]
      rw [hvalds, hBlen]
    by_cases hi : i < 0
    · rw [if_pos hi]
      rw [show (['-'] : Str) ++ (A ++ '.' :: B) = '-' :: (A ++ '.' :: B) from rfl]
      rw [show parseFloat ('-' :: (A ++ '.' :: B)) =
        (parseFloatBody (A ++ '.' :: B)).map (fun p => (-(p.1 : Int), p.2)) from rfl]
      rw [hbody]
      simp only [Option.map_some']
      have : -(i.natAbs : Int) = i := by omega
      rw [this]
    · rw [if_neg hi, List.nil_append]
      obtain ⟨a, t, hAc⟩ := List.exists_cons_of_ne_nil hAne
      have had : a.isDigit = true :=
        List.all_eq_true.1 hAdigit a (by rw [hAc]; exact List.mem_cons_self a t)
      rw [hAc] at hbody ⊢
      rw [List.cons_append] at hbody ⊢
      rw [parseFloat_cons_digit had, hbody]
      simp only [Option.map_some']
      have : (i.natAbs : Int) = i := by omega
      rw [this]

/-- Parsing the rendered form of a scaled decimal recovers its exact value. -/
theorem parseFloat_renderScaled (x : Scaled) :
    ∃ y, parseFloat (renderScaled x) = some y ∧ sval y = sval x := by
  refine ⟨normScaled x.1 x.2, ?_, ?_⟩
  · rw [show renderScaled x = renderPlain (normScaled x.1 x.2).1 (normScaled x.1 x.2).2
      from rfl]
    rw [parseFloat_renderPlain]
  · exact sval_normScaled x.1 x.2

/-! Case analysis of `battery_fraction`. -/

theorem width_ne_style : (s2l "width") ≠ (s2l "style") := by decide

theorem battery_fraction_missing {m : StrMap} (charge : Scaled)
    (h : mapGet (s2l "width") m = none) :
    battery_fraction m charge = (m, some .missingWidth) := by
  simp only [battery_fraction, h]

theorem battery_fraction_badwidth {m : StrMap} {ws : Str} (charge : Scaled)
    (h1 : mapGet (s2l "width") m = some ws) (h2 : parseFloat ws = none) :
    battery_fraction m charge = (m, some .widthParse) := by
  simp only [battery_fraction, h1, h2]

theorem battery_fraction_high {m : StrMap} {ws : Str} {w : Scaled} {charge : Scaled}
    (hc : sLt charge (3, 1) = false)
    (h1 : mapGet (s2l "width") m = some ws) (h2 : parseFloat ws = some w) :
    battery_fraction m charge =
      (mapInsert (s2l "width") (renderScaled (smul w charge)) m, none) := by
  simp only [battery_fraction, h1, h2, hc, Bool.false_eq_true, if_false]

theorem battery_fraction_low_err {m : StrMap} {ws : Str} {w : Scaled} {charge : Scaled}
    {e : Err} (hc : sLt charge (3, 1) = true)
    (h1 : mapGet (s2l "width") m = some ws) (h2 : parseFloat ws = some w)
    (hp : parse_style_map ((mapGet (s2l "style") m).getD []) = .error e) :
    battery_fraction m charge =
      (mapInsert (s2l "width") (renderScaled (smul w charge)) m, some e) := by
  simp only [battery_fraction, h1, h2, hc, if_true,
    mapGet_insert_other width_ne_style, hp]

theorem battery_fraction_low_ok {m : StrMap} {ws : Str} {w : Scaled} {charge : Scaled}
    {sm : StrMap} (hc : sLt charge (3, 1) = true)
    (h1 : mapGet (s2l "width") m = some ws) (h2 : parseFloat ws = some w)
    (hp : parse_style_map ((mapGet (s2l "style") m).getD []) = .ok sm) :
    battery_fraction m charge =
      (mapInsert (s2l "style")
        (map_as_style (mapInsert (s2l "fill")
          (if sLt charge (15, 2) = true then s2l "#ff0000" else s2l "#ff8000") sm))
        (mapInsert (s2l "width") (renderScaled (smul w charge)) m), none) := by
  simp only [battery_fraction, h1, h2, hc, if_true,
    mapGet_insert_other width_ne_style, hp]

/-! The concrete fill entries written by the transform are well formed. -/

theorem entryWF_fill_red : EntryWF (s2l "fill", s2l "#ff0000") := by
  refine ⟨by decide, by decide, by decide, ?_, ?_⟩
  · intro c hc
    rw [show (s2l "fill").head? = some 'f' from rfl] at hc
    cases hc
    decide
  · intro c hc
    rw [show (s2l "#ff0000").getLast? = some '0' from rfl] at hc
    cases hc
    decide

theorem entryWF_fill_orange : EntryWF (s2l "fill", s2l "#ff8000") := by
  refine ⟨by decide, by decide, by decide, ?_, ?_⟩
  · intro c hc
    rw [show (s2l "fill").head? = some 'f' from rfl] at hc
    cases hc
    decide
  · intro c hc
    rw [show (s2l "#ff8000").getLast? = some '0' from rfl] at hc
    cases hc
    decide

theorem style_roundtrip_insert_fill {sm : StrMap} {v : Str}
    (hv : EntryWF (s2l "fill", v))
    (hwf : ∀ kv ∈ sm, EntryWF kv) (hnd : (mapKeys sm).Nodup) :
    parse_style_map (map_as_style (mapInsert (s2l "fill") v sm)) =
      .ok (mapInsert (s2l "fill") v sm) := by
  apply style_roundtrip
  · intro p hp
    rcases mem_mapInsert p hp with rfl | h
    · exact hv
    · exact hwf p h
  · exact mapKeys_insert_nodup hnd
  · exact mapInsert_ne_nil _ _ _

/-- After a successful low-charge transform, the fill entry of the re-parsed
style attribute is exactly the colour the threshold selected. -/
theorem styleFill_battery_fraction_low {m sm : StrMap} {ws : Str} {w charge : Scaled}
    (hc : sLt charge (3, 1) = true)
    (h1 : mapGet (s2l "width") m = some ws) (h2 : parseFloat ws = some w)
    (hp : parse_style_map ((mapGet (s2l "style") m).getD []) = .ok sm) :
    styleFill (battery_fraction m charge).1 =
      some (if sLt charge (15, 2) = true then s2l "#ff0000" else s2l "#ff8000") := by
  rw [battery_fraction_low_ok hc h1 h2 hp]
  obtain ⟨hwf, hnd, _⟩ := parse_style_map_wf hp
  have hv : EntryWF (s2l "fill", if sLt charge (15, 2) = true then s2l "#ff0000"
      else s2l "#ff8000") := by
    by_cases h15 : sLt charge (15, 2) = true
    · rw [if_pos h15]; exact entryWF_fill_red
    · rw [if_neg h15]; exact entryWF_fill_orange
  have hrt := style_roundtrip_insert_fill hv hwf hnd
  simp only [styleFill, mapGet_insert_self, hrt]

/-! Matcher lemmas. -/

theorem atom_matches_nil (a : AtomMatcher) : a.matches [] = false := by
  cases a <;> rfl

theorem andM_matches_nil {ms : List AtomMatcher} (hne : ms ≠ []) :
    AndMatcher.matches ⟨ms⟩ [] = false := by
  cases ms with
  | nil => exact absurd rfl hne
  | cons a rest =>
    simp only [AndMatcher.matches, List.all_cons, atom_matches_nil, Bool.false_and]

theorem new_tag_matcher_matchers_ne_nil {spec : Str} {M : AndMatcher}
    (h : new_tag_matcher spec = .ok M) : M.matchers ≠ [] := by
  simp only [new_tag_matcher] at h
  set p := (splitFirst '#' spec).getD (spec, []) with hp
  by_cases h1 : p.1 = []
  · by_cases h2 : p.2 = []
    · rw [if_neg (not_not_intro h1), if_neg (not_not_intro h2)] at h
      simp at h
    · rw [if_neg (not_not_intro h1), if_pos h2] at h
      rw [if_neg (by simp)] at h
      cases h
      simp
  · by_cases h2 : p.2 = []
    · rw [if_pos h1, if_neg (not_not_intro h2)] at h
      rw [if_neg (by simp)] at h
      cases h
      simp
    · rw [if_pos h1, if_pos h2] at h
      rw [if_neg (by simp)] at h
      cases h
      simp

theorem andM_matches_pair {n i : Str} (st : List Tag) :
    AndMatcher.matches ⟨[.nameM n, .idM i]⟩ st = true ↔
      ∃ t, st.head? = some t ∧ t.name = n ∧ t.id = i := by
  cases st with
  | nil =>
    simp only [andM_matches_nil (by simp : ([AtomMatcher.nameM n, AtomMatcher.idM i]) ≠ [])]
    simp
  | cons t rest =>
    simp only [AndMatcher.matches, List.all_cons, List.all_nil, Bool.and_true,
      AtomMatcher.matches, List.head?_cons, Bool.and_eq_true, decide_eq_true_iff]
    constructor
    · intro hh
      exact ⟨t, rfl, hh.1, hh.2⟩
    · rintro ⟨t', ht', h1, h2⟩
      cases ht'
      exact ⟨h1, h2⟩

theorem andM_matches_name {n : Str} (st : List Tag) :
    AndMatcher.matches ⟨[.nameM n]⟩ st = true ↔
      ∃ t, st.head? = some t ∧ t.name = n := by
  cases st with
  | nil =>
    simp only [andM_matches_nil (by simp : ([AtomMatcher.nameM n]) ≠ [])]
    simp
  | cons t rest =>
    simp only [AndMatcher.matches, List.all_cons, List.all_nil, Bool.and_true,
      AtomMatcher.matches, List.head?_cons, decide_eq_true_iff]
    constructor
    · intro hh
      exact ⟨t, rfl, hh⟩
    · rintro ⟨t', ht', h1⟩
      cases ht'
      exact h1

theorem andM_matches_id {i : Str} (st : List Tag) :
    AndMatcher.matches ⟨[.idM i]⟩ st = true ↔
      ∃ t, st.head? = some t ∧ t.id = i := by
  cases st with
  | nil =>
    simp only [andM_matches_nil (by simp : ([AtomMatcher.idM i]) ≠ [])]
    simp
  | cons t rest =>
    simp only [AndMatcher.matches, List.all_cons, List.all_nil, Bool.and_true,
      AtomMatcher.matches, List.head?_cons, decide_eq_true_iff]
    constructor
    · intro hh
      exact ⟨t, rfl, hh⟩
    · rintro ⟨t', ht', h1⟩
      cases ht'
      exact h1

/-! Success characterization of `parse_style_map`. -/

theorem colon_mem_rustTrim_iff (seg : Str) : ':' ∈ rustTrim seg ↔ ':' ∈ seg :=
  ⟨mem_of_mem_rustTrim, fun h => mem_rustTrim_of_not_ws h (by decide)⟩

theorem parseStyleSegs_ok_iff : ∀ (segs : List Str) (acc : StrMap),
    (∃ m, parseStyleSegs segs acc = .ok m) ↔ ∀ seg ∈ segs, ':' ∈ seg := by
  intro segs
  induction segs with
  | nil =>
    intro acc
    constructor
    · intro _ seg hs
      cases hs
    · intro _
      exact ⟨acc, rfl⟩
  | cons seg rest ih =>
    intro acc
    cases hsp : splitFirst ':' (rustTrim seg) with
    | none =>
      have hred : parseStyleSegs (seg :: rest) acc = .error (.styleParse [rustTrim seg]) := by
        simp only [parseStyleSegs, hsp]
      constructor
      · rintro ⟨m, hm⟩
        rw [hred] at hm
        cases hm
      · intro hall
        exfalso
        have hc : ':' ∈ rustTrim seg :=
          (colon_mem_rustTrim_iff seg).2 (hall seg (List.mem_cons_self _ _))
        exact (splitFirst_eq_none.1 hsp) hc
    | some p =>
      obtain ⟨k, v⟩ := p
      have hred : parseStyleSegs (seg :: rest) acc =
          parseStyleSegs rest (mapInsert k v acc) := by
        simp only [parseStyleSegs, hsp]
      have hcolon : ':' ∈ seg := by
        obtain ⟨htr, _⟩ := splitFirst_eq_some hsp
        exact (colon_mem_rustTrim_iff seg).1 (htr ▸ List.mem_append_right k
          (List.mem_cons_self ':' v))
      constructor
      · rintro ⟨m, hm⟩
        rw [hred] at hm
        intro seg' hs
        rcases List.mem_cons.1 hs with rfl | hs'
        · exact hcolon
        · exact ((ih (mapInsert k v acc)).1 ⟨m, hm⟩) seg' hs'
      · intro hall
        obtain ⟨m, hm⟩ := (ih (mapInsert k v acc)).2
          (fun s' hs' => hall s' (List.mem_cons_of_mem _ hs'))
        exact ⟨m, hred ▸ hm⟩

/-! Claim theorems. -/

/-- C1 counterexample: with a valid width, `charge = 0.2 < 0.3` and the
malformed style string "bad", `battery_fraction` returns the style parse
error instead of recovering with an empty style map, refuting the claim that
the transform never fails because of a malformed style string. -/
theorem claim_C1_cex :
    battery_fraction [(s2l "width", s2l "200"), (s2l "style", s2l "bad")] (2, 1) =
      ([(s2l "width", s2l "40"), (s2l "style", s2l "bad")],
        some (.styleParse [s2l "bad"])) := by
  decide

/-- C1 (amended): when `charge < 0.3` and the style attribute's value (the
empty string when absent) fails to parse, `battery_fraction` propagates the
parse error — there is no local recovery; the map keeps the already-rescaled
width but the transform fails. -/
theorem claim_C1_amended (m : StrMap) (ws : Str) (w charge : Scaled) (e : Err)
    (h1 : mapGet (s2l "width") m = some ws) (h2 : parseFloat ws = some w)
    (hc : sLt charge (3, 1) = true)
    (h4 : parse_style_map ((mapGet (s2l "style") m).getD []) = .error e) :
    battery_fraction m charge =
      (mapInsert (s2l "width") (renderScaled (smul w charge)) m, some e) :=
  battery_fraction_low_err hc h1 h2 h4

/-- C1 witness: the amended theorem applied at a concrete map and charge. -/
theorem claim_C1_witness :
    battery_fraction [(s2l "width", s2l "200"), (s2l "style", s2l "nocolon")] (1, 1) =
      ([(s2l "width", s2l "20"), (s2l "style", s2l "nocolon")],
        some (.styleParse [s2l "nocolon"])) := by
  have h := claim_C1_amended [(s2l "width", s2l "200"), (s2l "style", s2l "nocolon")]
    (s2l "200") (200, 0) (1, 1) (.styleParse [s2l "nocolon"])
    (by decide) (by decide) (by decide) (by decide)
  rw [h]
  decide

/-- C2 counterexample: the empty string does not parse to an empty style map;
its single empty segment has no colon, so `parse_style_map` fails. -/
theorem claim_C2_cex : parse_style_map [] = .error (.styleParse [[]]) := by
  decide

/-- C2 (amended): `parse_style_map` succeeds exactly when every `;`-separated
segment contains at least one `:` (the split is `splitn(2, ":")`, taken at the
first colon, so segments with more than one `:` still parse); in particular
the empty string fails, since its single empty segment has no colon. -/
theorem claim_C2_amended (s : Str) :
    (∃ m, parse_style_map s = .ok m) ↔ ∀ seg ∈ splitOnChar ';' s, ':' ∈ seg := by
  unfold parse_style_map
  exact parseStyleSegs_ok_iff (splitOnChar ';' s) []

/-- C2 witness: the amended theorem applied at a concrete style string. -/
theorem claim_C2_witness : ∃ m, parse_style_map (s2l "fill:red;opacity:1") = .ok m :=
  (claim_C2_amended (s2l "fill:red;opacity:1")).mpr (by decide)

/-- C3 counterexample: the event stream consisting of one unclosed `<svg>`
start element runs to end of input and terminates with no error while the
ancestry stack is still non-empty — the engine performs no stack-emptiness
check at end of input, refuting the claimed StructuralError. -/
theorem claim_C3_cex :
    runLoop [.startEv (s2b "svg") []] [] [] =
      ([.startOut (s2b "svg") []], [⟨s2l "svg", []⟩], none) := by
  decide

/-- C3 (amended): reaching end of input, the engine terminates successfully
whatever the ancestry stack holds (the `Eof` arm of the loop just breaks);
a stream ending with an unclosed element therefore completes with no error
and the element still on the stack. -/
theorem claim_C3_amended (stack : List Tag) (out : List OutEvent) (nameB : List Nat)
    (attrs : List (List Nat × List Nat)) (t : Tag) (h : Tag.new nameB attrs = .ok t) :
    runLoop [] stack out = (out, stack, none) ∧
    runLoop [.startEv nameB attrs] [] [] = ([.startOut nameB attrs], [t], none) := by
  constructor
  · rfl
  · have hpe : processEvent [] (.startEv nameB attrs) = .ok ([t], [.startOut nameB attrs]) := by
      simp only [processEvent, h]
    simp only [runLoop, hpe]
    simp

/-- C3 witness: the amended theorem applied at a concrete unclosed element. -/
theorem claim_C3_witness :
    runLoop [.startEv (s2b "g") []] [] [] = ([.startOut (s2b "g") []], [⟨s2l "g", []⟩], none) :=
  (claim_C3_amended [] [] (s2b "g") [] ⟨s2l "g", []⟩ (by decide)).2

/-- C4 counterexample: an element named "rect" with an `id` attribute whose
value is the invalid UTF-8 byte 0xFF still derives a Tag (with `id = ""`,
via `unwrap_or`), refuting the claim that tag derivation fails on any
invalid-encoding attribute value. -/
theorem claim_C4_cex :
    utf8Decode [255] = none ∧
    Tag.new (s2b "rect") [(s2b "id", [255])] = .ok ⟨s2l "rect", []⟩ := by
  constructor
  · decide
  · decide

/-- C4 (amended): `Tag::new` fails with a DecodeError exactly when the element
NAME is not valid UTF-8; attribute keys and values that fail to decode are
silently replaced by the empty string, so derivation still returns a Tag. -/
theorem claim_C4_amended (nameB : List Nat) (attrs : List (List Nat × List Nat)) :
    (Tag.new nameB attrs = .error .nameDecode ↔ utf8Decode nameB = none) ∧
    (∀ n, utf8Decode nameB = some n → ∃ t, Tag.new nameB attrs = .ok t ∧ t.name = n) := by
  constructor
  · constructor
    · intro h
      cases hd : utf8Decode nameB with
      | none => rfl
      | some n =>
        simp only [Tag.new, hd] at h
        cases h
    · intro hd
      simp only [Tag.new, hd]
  · intro n hd
    simp only [Tag.new, hd]
    exact ⟨_, rfl, rfl⟩

/-- C4 witness: the amended theorem applied at a name that decodes and an
attribute list with an undecodable value. -/
theorem claim_C4_witness :
    ∃ t, Tag.new (s2b "rect") [(s2b "width", [255])] = .ok t ∧ t.name = s2l "rect" :=
  (claim_C4_amended (s2b "rect") [(s2b "width", [255])]).2 (s2l "rect") (by decide)

/-- C5 counterexample: for the attribute map with a valid width but no style
attribute, at `charge = 0.2` the transform fails (the default empty style
string does not parse) instead of setting fill to "#ff8000", refuting the
claim for every attribute map. -/
theorem claim_C5_cex :
    battery_fraction [(s2l "width", s2l "200")] (2, 1) =
      ([(s2l "width", s2l "40")], some (.styleParse [[]])) := by
  decide

/-- C5 (amended): for every attribute map with a valid width whose style value
(the empty default when absent) parses, the recoloring is threshold-driven
with strict lower comparisons: at charge 0.5 and at the boundary 0.3 the
style attribute is untouched; at 0.2 fill becomes "#ff8000"; at 0.1 it
becomes "#ff0000"; at the boundary 0.15 it becomes "#ff8000", not
"#ff0000". -/
theorem claim_C5_amended (m : StrMap) (ws : Str) (w : Scaled) (sm : StrMap)
    (h1 : mapGet (s2l "width") m = some ws) (h2 : parseFloat ws = some w)
    (h3 : parse_style_map ((mapGet (s2l "style") m).getD []) = .ok sm) :
    ((battery_fraction m (5, 1)).2 = none ∧
      mapGet (s2l "style") (battery_fraction m (5, 1)).1 = mapGet (s2l "style") m) ∧
    ((battery_fraction m (3, 1)).2 = none ∧
      mapGet (s2l "style") (battery_fraction m (3, 1)).1 = mapGet (s2l "style") m) ∧
    ((battery_fraction m (2, 1)).2 = none ∧
      styleFill (battery_fraction m (2, 1)).1 = some (s2l "#ff8000")) ∧
    ((battery_fraction m (1, 1)).2 = none ∧
      styleFill (battery_fraction m (1, 1)).1 = some (s2l "#ff0000")) ∧
    ((battery_fraction m (15, 2)).2 = none ∧
      styleFill (battery_fraction m (15, 2)).1 = some (s2l "#ff8000")) := by
  have huntouched : ∀ charge : Scaled, sLt charge (3, 1) = false →
      (battery_fraction m charge).2 = none ∧
        mapGet (s2l "style") (battery_fraction m charge).1 = mapGet (s2l "style") m := by
    intro charge hc
    rw [battery_fraction_high hc h1 h2]
    exact ⟨rfl, mapGet_insert_other width_ne_style _ _⟩
  have hlow : ∀ charge : Scaled, sLt charge (3, 1) = true →
      (battery_fraction m charge).2 = none ∧
        styleFill (battery_fraction m charge).1 =
          some (if sLt charge (15, 2) = true then s2l "#ff0000" else s2l "#ff8000") := by
    intro charge hc
    constructor
    · rw [battery_fraction_low_ok hc h1 h2 h3]
    · exact styleFill_battery_fraction_low hc h1 h2 h3
  refine ⟨huntouched _ (by decide), huntouched _ (by decide), ?_, ?_, ?_⟩
  · have h := hlow (2, 1) (by decide)
    rw [show sLt (2, 1) (15, 2) = false from by decide] at h
    simpa using h
  · have h := hlow (1, 1) (by decide)
    rw [show sLt (1, 1) (15, 2) = true from by decide] at h
    simpa using h
  · have h := hlow (15, 2) (by decide)
    rw [show sLt (15, 2) (15, 2) = false from by decide] at h
    simpa using h

/-- C5 witness: the amended theorem applied at `width="200"`,
`style="fill:green"`, extracting the charge-0.2 recoloring. -/
theorem claim_C5_witness :
    (battery_fraction [(s2l "width", s2l "200"), (s2l "style", s2l "fill:green")] (2, 1)).2 =
      none ∧
    styleFill
      (battery_fraction [(s2l "width", s2l "200"), (s2l "style", s2l "fill:green")] (2, 1)).1 =
      some (s2l "#ff8000") :=
  (claim_C5_amended [(s2l "width", s2l "200"), (s2l "style", s2l "fill:green")]
    (s2l "200") (200, 0) [(s2l "fill", s2l "green")]
    (by decide) (by decide) (by decide)).2.2.1

/-- C6: for every attribute map whose width value parses, the transform
replaces the width value with the rendering of `width * charge` (whose
decoded value is exactly the product of the decoded width and the charge);
a map without width fails with the missing-attribute error and a
non-numeric width fails with the numeric parse error. -/
theorem claim_C6 (m : StrMap) (ws : Str) (w charge : Scaled)
    (h1 : mapGet (s2l "width") m = some ws) (h2 : parseFloat ws = some w) :
    (mapGet (s2l "width") (battery_fraction m charge).1 =
        some (renderScaled (smul w charge)) ∧
      ∃ w2, parseFloat (renderScaled (smul w charge)) = some w2 ∧
        sval w2 = sval w * sval charge) ∧
    (∀ m2 : StrMap, mapGet (s2l "width") m2 = none →
      battery_fraction m2 charge = (m2, some .missingWidth)) ∧
    (∀ (m3 : StrMap) (ws3 : Str), mapGet (s2l "width") m3 = some ws3 →
      parseFloat ws3 = none → battery_fraction m3 charge = (m3, some .widthParse)) := by
  refine ⟨⟨?_, ?_⟩, ?_, ?_⟩
  · by_cases hc : sLt charge (3, 1) = true
    · cases hp : parse_style_map ((mapGet (s2l "style") m).getD []) with
      | error e =>
        rw [battery_fraction_low_err hc h1 h2 hp]
        exact mapGet_insert_self _ _ _
      | ok sm =>
        rw [battery_fraction_low_ok hc h1 h2 hp]
        rw [mapGet_insert_other (Ne.symm width_ne_style) _ _]
        exact mapGet_insert_self _ _ _
    · have hc' : sLt charge (3, 1) = false := by
        cases h : sLt charge (3, 1)
        · rfl
        · exact absurd h hc
      rw [battery_fraction_high hc' h1 h2]
      exact mapGet_insert_self _ _ _
  · obtain ⟨y, hy1, hy2⟩ := parseFloat_renderScaled (smul w charge)
    exact ⟨y, hy1, by rw [hy2, sval_smul]⟩
  · intro m2 hm2
    exact battery_fraction_missing charge hm2
  · intro m3 ws3 hm3 hp3
    exact battery_fraction_badwidth charge hm3 hp3

/-- C6 witness: width "200" at charge 0.5 becomes "100"; at charge 1.0 the
decoded width is unchanged; a missing width and the width "abc" fail with
their respective errors. -/
theorem claim_C6_witness :
    mapGet (s2l "width") (battery_fraction [(s2l "width", s2l "200")] (5, 1)).1 =
      some (s2l "100") ∧
    (∃ w2, parseFloat (renderScaled (smul (200, 0) (1, 0))) = some w2 ∧
      sval w2 = sval (200, 0)) ∧
    battery_fraction [] (5, 1) = ([], some .missingWidth) ∧
    battery_fraction [(s2l "width", s2l "abc")] (5, 1) =
      ([(s2l "width", s2l "abc")], some .widthParse) := by
  have h1 := claim_C6 [(s2l "width", s2l "200")] (s2l "200") (200, 0) (5, 1)
    (by decide) (by decide)
  have h2 := claim_C6 [(s2l "width", s2l "200")] (s2l "200") (200, 0) (1, 0)
    (by decide) (by decide)
  refine ⟨?_, ?_, ?_, ?_⟩
  · have hwv := h1.1.1
    rw [show renderScaled (smul (200, 0) (5, 1)) = s2l "100" from by decide] at hwv
    exact hwv
  · obtain ⟨w2, hw2, hv⟩ := h2.1.2
    refine ⟨w2, hw2, ?_⟩
    rw [hv, show sval ((1 : Int), (0 : Nat)) = 1 from by norm_num [sval], mul_one]
  · exact h1.2.1 [] (by decide)
  · exact h1.2.2 [(s2l "width", s2l "abc")] (s2l "abc") (by decide) (by decide)

/-- C7: selector compilation is deterministic over the `#`-split of the spec:
"rect#fraction" compiles to a matcher satisfied exactly by a stack whose top
Tag has name "rect" and id "fraction"; "rect" matches any top Tag named
"rect"; "#fraction" matches any top Tag with id "fraction"; the empty spec
fails to compile; and every compiled matcher returns false on the empty
stack. -/
theorem claim_C7 :
    (∃ M, new_tag_matcher (s2l "rect#fraction") = .ok M ∧
      ∀ st : List Tag, (M.matches st = true ↔
        ∃ t, st.head? = some t ∧ t.name = s2l "rect" ∧ t.id = s2l "fraction")) ∧
    (∃ M, new_tag_matcher (s2l "rect") = .ok M ∧
      ∀ st : List Tag, (M.matches st = true ↔
        ∃ t, st.head? = some t ∧ t.name = s2l "rect")) ∧
    (∃ M, new_tag_matcher (s2l "#fraction") = .ok M ∧
      ∀ st : List Tag, (M.matches st = true ↔
        ∃ t, st.head? = some t ∧ t.id = s2l "fraction")) ∧
    new_tag_matcher (s2l "") = .error .badSpec ∧
    (∀ (spec : Str) (M : AndMatcher), new_tag_matcher spec = .ok M →
      M.matches [] = false) := by
  refine ⟨⟨⟨[.nameM (s2l "rect"), .idM (s2l "fraction")]⟩, by decide, andM_matches_pair⟩,
    ⟨⟨[.nameM (s2l "rect")]⟩, by decide, andM_matches_name⟩,
    ⟨⟨[.idM (s2l "fraction")]⟩, by decide, andM_matches_id⟩,
    by decide, ?_⟩
  intro spec M h
  have hne := new_tag_matcher_matchers_ne_nil h
  obtain ⟨ms⟩ := M
  exact andM_matches_nil hne

/-- C7 witness: the compiled "rect#fraction" matcher accepts the singleton
stack holding the rect/fraction Tag. -/
theorem claim_C7_witness :
    ∃ M, new_tag_matcher (s2l "rect#fraction") = .ok M ∧
      M.matches [⟨s2l "rect", s2l "fraction"⟩] = true := by
  obtain ⟨M, hM, hiff⟩ := claim_C7.1
  exact ⟨M, hM, (hiff _).2 ⟨⟨s2l "rect", s2l "fraction"⟩, rfl, rfl, rfl⟩⟩

/-- C8: for every string accepted by `parse_style_map`, rendering the parsed
map and re-parsing reproduces exactly the same key/value pairs, and rendering
the empty map gives the empty string. -/
theorem claim_C8 (s : Str) (m : StrMap) (h : parse_style_map s = .ok m) :
    parse_style_map (map_as_style m) = .ok m ∧ map_as_style ([] : StrMap) = [] := by
  obtain ⟨hwf, hnd, hne⟩ := parse_style_map_wf h
  exact ⟨style_roundtrip hwf hnd hne, rfl⟩

/-- C8 witness: the round trip applied to "fill:red;opacity:1". -/
theorem claim_C8_witness :
    parse_style_map (map_as_style [(s2l "fill", s2l "red"), (s2l "opacity", s2l "1")]) =
      .ok [(s2l "fill", s2l "red"), (s2l "opacity", s2l "1")] :=
  (claim_C8 (s2l "fill:red;opacity:1") _ (by decide)).1

/-- C9: on an element-close event with a decodable name, the engine fails
with the unexpected-close error when the stack is empty and with the
mismatched-close error when the top tag's name differs from the closing
name; in either case the loop stops at that event and writes nothing
further. -/
theorem claim_C9 (nameB : List Nat) (n : Str) (hd : utf8Decode nameB = some n)
    (t : Tag) (s : List Tag) (rest : List XmlEvent) (out : List OutEvent) :
    processEvent [] (.endEv nameB) = .error .unexpectedClose ∧
    (t.name ≠ n → processEvent (t :: s) (.endEv nameB) =
      .error (.mismatchedClose n t.name)) ∧
    (∀ (stack : List Tag) (e : Err), processEvent stack (.endEv nameB) = .error e →
      runLoop (.endEv nameB :: rest) stack out = (out, stack, some e)) := by
  have htag : Tag.new nameB [] = .ok ⟨n, []⟩ := by
    simp only [Tag.new, hd]
    rfl
  refine ⟨?_, ?_, ?_⟩
  · simp only [processEvent, htag]
  · intro hne
    simp only [processEvent, htag]
    rw [if_pos (show (⟨n, []⟩ : Tag).name ≠ t.name from fun hh => hne hh.symm)]
  · intro stack e he
    simp only [runLoop, he]

/-- C9 witness: the theorem applied at the closing name "g", an empty stack,
and a stack whose top is a "rect" Tag. -/
theorem claim_C9_witness :
    processEvent [] (.endEv (s2b "g")) = .error .unexpectedClose ∧
    processEvent [⟨s2l "rect", []⟩] (.endEv (s2b "g")) =
      .error (.mismatchedClose (s2l "g") (s2l "rect")) ∧
    runLoop [.endEv (s2b "g")] [] [] = ([], [], some .unexpectedClose) := by
  have h := claim_C9 (s2b "g") (s2l "g") (by decide) ⟨s2l "rect", []⟩ [] [] []
  exact ⟨h.1, h.2.1 (by decide), h.2.2 [] .unexpectedClose h.1⟩

/-- C10: a self-closing element deriving the rect/fraction Tag whose raw
attribute list fails to convert into an attribute map is emitted unchanged —
its original attribute list passes through and neither `process_attributes`
nor the event loop fails. -/
theorem claim_C10 (nameB : List Nat) (attrs : List (List Nat × List Nat)) (t : Tag)
    (e : Err) (stack : List Tag)
    (h1 : Tag.new nameB attrs = .ok t) (h2 : t.name = s2l "rect")
    (h3 : t.id = s2l "fraction") (h4 : new_attr_map attrs = .error e) :
    process_attributes nameB attrs = .ok (.emptyOut (utf8Encode t.name) attrs) ∧
    processEvent stack (.emptyEv nameB attrs) =
      .ok (stack, [.emptyOut (utf8Encode t.name) attrs]) := by
  have hm : new_tag_matcher (s2l "rect#fraction") =
      .ok ⟨[.nameM (s2l "rect"), .idM (s2l "fraction")]⟩ := by decide
  have hmatch : AndMatcher.matches ⟨[.nameM (s2l "rect"), .idM (s2l "fraction")]⟩ [t] =
      true := (andM_matches_pair [t]).2 ⟨t, rfl, h2, h3⟩
  have hpa : process_attributes nameB attrs = .ok (.emptyOut (utf8Encode t.name) attrs) := by
    simp only [process_attributes, h1, hm, hmatch, not_true, if_false, h4]
  exact ⟨hpa, by simp only [processEvent, hpa]⟩

/-- C10 witness: the element `<rect id="fraction" width=0xFF/>` (an invalid
UTF-8 width value) passes through with its original attributes. -/
theorem claim_C10_witness :
    process_attributes (s2b "rect") [(s2b "id", s2b "fraction"), (s2b "width", [255])] =
      .ok (.emptyOut (s2b "rect") [(s2b "id", s2b "fraction"), (s2b "width", [255])]) :=
  (claim_C10 (s2b "rect") [(s2b "id", s2b "fraction"), (s2b "width", [255])]
    ⟨s2l "rect", s2l "fraction"⟩ .attrDecode []
    (by decide) (by decide) (by decide) (by decide)).1
